import Mathlib

/-!
Shallow embedding of the map variants of `src/src/lib.rs` from the
`comparison-of-maps` repository, together with proofs of its specified
properties.

Conventions of the embedding:
* Keys are `Nat`.  The source instantiates `K = u32` and only ever compares
  keys (by equality or by total order), never computes with them, so `Nat`
  equality/order coincides with `u32` equality/order on stored keys.
* Values stay a type parameter `V`, as in the source; the code never
  inspects a value.
* Rust `Vec<T>` becomes `List T`; `push` appends at the tail.
* Fallible accesses (`Vec::get`, `slice::get_unchecked`) become `l[i]?`
  returning `Option`; the safety claims show the unchecked ones are always
  in bounds on reachable states.
-/

namespace CompMaps

/-- `LinearMap` (src/src/lib.rs lines 12-28): a vector of pairs; `insert`
pushes at the tail, `find` scans front-to-back for the first key match. -/
structure LinearMap (V : Type) where
  data : List (Nat × V)

def LinearMap.empty {V : Type} : LinearMap V := ⟨[]⟩

def LinearMap.insert {V : Type} (m : LinearMap V) (key : Nat) (value : V) : LinearMap V :=
  ⟨m.data ++ [(key, value)]⟩

def LinearMap.find {V : Type} (m : LinearMap V) (key : Nat) : Option V :=
  (m.data.find? (fun entry => entry.1 == key)).map Prod.snd

/-- `BinaryMap.insert` (src/src/lib.rs lines 35-39): push the pair, then
re-sort the whole vector by key (`sort_unstable_by` on `a.0.cmp(&b.0)`);
the embedding uses `mergeSort` with the same key order (tie order among
equal keys is unspecified by `sort_unstable_by`, and no claim depends on
it). -/
structure BinaryMap (V : Type) where
  data : List (Nat × V)

def BinaryMap.empty {V : Type} : BinaryMap V := ⟨[]⟩

def BinaryMap.insert {V : Type} (m : BinaryMap V) (key : Nat) (value : V) : BinaryMap V :=
  ⟨(m.data ++ [(key, value)]).mergeSort (fun a b => decide (a.1 ≤ b.1))⟩

/-- The key stored at index `i`, as read by the slice indexing inside
`binary_search_by` (in bounds whenever `i < data.length`). -/
def keyAt {V : Type} (data : List (Nat × V)) (i : Nat) : Nat :=
  (data[i]?.map Prod.fst).getD 0

/-- Rust `slice::binary_search_by` with comparator `|entry| entry.0.cmp(&key)`
(src/src/lib.rs line 42): maintain a window `[left, right)`, probe
`mid = left + (right - left) / 2`, narrow on `Less`/`Greater`, return the
index on `Equal`; `Err` (no hit) is `none` here since `BinaryMap::find`
discards the insertion point. -/
def binarySearchGo {V : Type} (data : List (Nat × V)) (key : Nat) (left right : Nat) :
    Option Nat :=
  if _h : left < right then
    if keyAt data (left + (right - left) / 2) < key then
      binarySearchGo data key (left + (right - left) / 2 + 1) right
    else if key < keyAt data (left + (right - left) / 2) then
      binarySearchGo data key left (left + (right - left) / 2)
    else
      some (left + (right - left) / 2)
  else
    none
termination_by right - left
decreasing_by
  all_goals omega

/-- `BinaryMap.find` (src/src/lib.rs lines 41-46): binary search by key; on
`Ok(index)` return the value at `index` (`get_unchecked` in the source,
modelled as `[·]?`), on `Err` return `none`. -/
def BinaryMap.find {V : Type} (m : BinaryMap V) (key : Nat) : Option V :=
  match binarySearchGo m.data key 0 m.data.length with
  | some index => m.data[index]?.map Prod.snd
  | none => none

/-- `KvMap` (src/src/lib.rs lines 49-65): keys and values in two parallel
vectors; `find` scans only the keys (`position`), then reads the value at
the found index (`get_unchecked`, modelled as `[·]?`). -/
structure KvMap (V : Type) where
  keys : List Nat
  values : List V

def KvMap.empty {V : Type} : KvMap V := ⟨[], []⟩

def KvMap.insert {V : Type} (m : KvMap V) (key : Nat) (value : V) : KvMap V :=
  ⟨m.keys ++ [key], m.values ++ [value]⟩

def KvMap.find {V : Type} (m : KvMap V) (key : Nat) : Option V :=
  match m.keys.findIdx? (fun stored => stored == key) with
  | some index => m.values[index]?
  | none => none

/-- `SimdMap16` / `SimdMap8` (src/src/lib.rs lines 67-131) share one
structure; the two impls differ only in the lane width `W`. -/
structure SimdMap (V : Type) where
  keys : List Nat
  next : Nat
  values : List V

def SimdMap.empty {V : Type} : SimdMap V := ⟨[], 0, []⟩

/-- `SimdMapN::insert` (src/src/lib.rs lines 75-83 and 108-116): when
`next == keys.len()`, extend `keys` with `W` zeros; write the key at slot
`next`, bump `next`, push the value. -/
def SimdMap.insert {V : Type} (W : Nat) (m : SimdMap V) (key : Nat) (value : V) :
    SimdMap V :=
  let grown := if m.next = m.keys.length then m.keys ++ List.replicate W 0 else m.keys
  { keys := grown.set m.next key
    next := m.next + 1
    values := m.values ++ [value] }

/-- One block compare of `find`: load `W` lanes at `index`
(`from_slice_unaligned` on `keys[index..]`), compare each lane to the
broadcast key, and take the trailing-zero count of the resulting bitmask —
i.e. the position of the first set bit, which is the first matching lane;
`none` models a zero mask (trailing-zero count `≥ W`). -/
def simdBlockZeros (keys : List Nat) (index W key : Nat) : Option Nat :=
  ((keys.drop index).take W).findIdx? (fun lane => lane == key)

/-- The offsets visited by `(0..len).step_by(W)`: `0, W, 2W, …` while `< len`. -/
def stepIndices (len W : Nat) : List Nat :=
  List.range' 0 ((len + (W - 1)) / W) W

/-- The block loop of `SimdMapN::find`: at each offset, if some lane
matches (`zeros < W`) return `values.get(index + zeros)` immediately,
else move to the next block; `none` after the last block. -/
def simdFindGo {V : Type} (W : Nat) (keys : List Nat) (values : List V) (key : Nat) :
    List Nat → Option V
  | [] => none
  | index :: rest =>
    match simdBlockZeros keys index W key with
    | some zeros => values[index + zeros]?
    | none => simdFindGo W keys values key rest

/-- `SimdMapN::find` (src/src/lib.rs lines 85-97 and 118-130). -/
def SimdMap.find {V : Type} (W : Nat) (m : SimdMap V) (key : Nat) : Option V :=
  simdFindGo W m.keys m.values key (stepIndices m.keys.length W)

/-- `std::collections::HashMap::insert` / `BTreeMap::insert` as used by the
`Map` impls (src/src/lib.rs lines 136-156). Modelled from the spec:
the std containers are external, and the spec fixes their observable
semantics — "standard collection semantics; equal-key reinsert replaces".
The model replaces the value of an existing key in place and otherwise
appends the pair. -/
def stdInsert {V : Type} : List (Nat × V) → Nat → V → List (Nat × V)
  | [], key, value => [(key, value)]
  | entry :: rest, key, value =>
    if entry.1 = key then (key, value) :: rest
    else entry :: stdInsert rest key value

/-- Lookup for the std-container models: the value of the (unique) entry of
the key, if present. -/
def stdFind {V : Type} (data : List (Nat × V)) (key : Nat) : Option V :=
  (data.find? (fun entry => entry.1 == key)).map Prod.snd

/-- Model of the `HashMap` variant (src/src/lib.rs lines 133-144). -/
structure HashMap (V : Type) where
  data : List (Nat × V)

def HashMap.empty {V : Type} : HashMap V := ⟨[]⟩

def HashMap.insert {V : Type} (m : HashMap V) (key : Nat) (value : V) : HashMap V :=
  ⟨stdInsert m.data key value⟩

def HashMap.find {V : Type} (m : HashMap V) (key : Nat) : Option V :=
  stdFind m.data key

/-- Model of the `BTreeMap` variant (src/src/lib.rs lines 146-156). -/
structure BTreeMap (V : Type) where
  data : List (Nat × V)

def BTreeMap.empty {V : Type} : BTreeMap V := ⟨[]⟩

def BTreeMap.insert {V : Type} (m : BTreeMap V) (key : Nat) (value : V) : BTreeMap V :=
  ⟨stdInsert m.data key value⟩

def BTreeMap.find {V : Type} (m : BTreeMap V) (key : Nat) : Option V :=
  stdFind m.data key

/-! Reachable states: each variant built by folding `insert` over a trace of
inserted pairs, starting from the default (empty) map. -/

def buildLinear {V : Type} (trace : List (Nat × V)) : LinearMap V :=
  trace.foldl (fun m e => m.insert e.1 e.2) LinearMap.empty

def buildBinary {V : Type} (trace : List (Nat × V)) : BinaryMap V :=
  trace.foldl (fun m e => m.insert e.1 e.2) BinaryMap.empty

def buildKv {V : Type} (trace : List (Nat × V)) : KvMap V :=
  trace.foldl (fun m e => m.insert e.1 e.2) KvMap.empty

def buildSimd {V : Type} (W : Nat) (trace : List (Nat × V)) : SimdMap V :=
  trace.foldl (fun m e => m.insert W e.1 e.2) SimdMap.empty

def buildHash {V : Type} (trace : List (Nat × V)) : HashMap V :=
  trace.foldl (fun m e => m.insert e.1 e.2) HashMap.empty

def buildBTree {V : Type} (trace : List (Nat × V)) : BTreeMap V :=
  trace.foldl (fun m e => m.insert e.1 e.2) BTreeMap.empty

/-- A concrete 17-insertion trace (keys 1..17), crossing the 8-lane block
edge twice and the 16-lane block edge once. -/
def wtrace : List (Nat × Nat) :=
  (List.range 17).map (fun i => (i + 1, i + 101))

/-- The structural invariant of the SIMD variants, as the spec states it:
`keys.len()` is a multiple of the lane width, `next` equals `values.len()`
and is at most `keys.len()`, and every slot of `keys[next ..)` holds the
sentinel 0. -/
def SimdInv {V : Type} (W : Nat) (m : SimdMap V) : Prop :=
  W ∣ m.keys.length ∧
  m.next = m.values.length ∧
  m.next ≤ m.keys.length ∧
  ∀ i, m.next ≤ i → i < m.keys.length → m.keys[i]? = some 0

/-- Full characterization of a SIMD map built by a trace of insertions:
the key buffer is the inserted keys followed by zero padding, `next` counts
the insertions, and `values` holds the inserted values in order. -/
def SimdChar {V : Type} (W : Nat) (trace : List (Nat × V)) (m : SimdMap V) : Prop :=
  m.next = trace.length ∧
  m.values = trace.map Prod.snd ∧
  W ∣ m.keys.length ∧
  trace.length ≤ m.keys.length ∧
  m.keys = trace.map Prod.fst ++ List.replicate (m.keys.length - trace.length) 0

/-! Generic list lemmas used by several variants. -/

lemma find?_eq_head_filter {α : Type} (p : α → Bool) (l : List α) :
    l.find? p = (l.filter p).head? := by
  induction l with
  | nil => rfl
  | cons x t ih =>
    cases hp : p x
    · rw [List.find?_cons_of_neg _ (by simp [hp]), List.filter_cons_of_neg (by simp [hp]), ih]
    · rw [List.find?_cons_of_pos _ (by simp [hp]), List.filter_cons_of_pos (by simp [hp])]
      rfl

/-- When filtering keeps exactly one element, `findIdx?` locates it. -/
lemma filter_singleton_findIdx? {α : Type} (p : α → Bool) (l : List α) (a : α)
    (h : l.filter p = [a]) :
    ∃ i, l.findIdx? p = some i ∧ l[i]? = some a := by
  induction l with
  | nil => simp at h
  | cons x t ih =>
    cases hp : p x
    · rw [List.filter_cons_of_neg (by simp [hp])] at h
      obtain ⟨i, hfind, hget⟩ := ih h
      refine ⟨i + 1, ?_, by simpa using hget⟩
      rw [List.findIdx?_cons, if_neg (by simp [hp]), List.findIdx?_start_succ, hfind]
      rfl
    · rw [List.filter_cons_of_pos (by simp [hp])] at h
      obtain ⟨rfl, -⟩ : x = a ∧ t.filter p = [] := by
        constructor <;> [exact (List.cons_eq_cons.mp h).1; exact (List.cons_eq_cons.mp h).2]
      exact ⟨0, by simp [List.findIdx?_cons, hp], by simp⟩

/-! Characterization of the states reachable by a trace of insertions. -/

lemma buildLinear_data {V : Type} (trace : List (Nat × V)) :
    (buildLinear trace).data = trace := by
  suffices h : ∀ m : LinearMap V,
      (trace.foldl (fun m e => m.insert e.1 e.2) m).data = m.data ++ trace by
    simpa using h LinearMap.empty
  induction trace with
  | nil => intro m; simp [LinearMap.empty]
  | cons e t ih =>
    intro m
    rw [List.foldl_cons, ih]
    simp [LinearMap.insert]

lemma buildKv_keys {V : Type} (trace : List (Nat × V)) :
    (buildKv trace).keys = trace.map Prod.fst := by
  suffices h : ∀ m : KvMap V,
      (trace.foldl (fun m e => m.insert e.1 e.2) m).keys = m.keys ++ trace.map Prod.fst by
    simpa using h KvMap.empty
  induction trace with
  | nil => intro m; simp
  | cons e t ih =>
    intro m
    rw [List.foldl_cons, ih]
    simp [KvMap.insert]

lemma buildKv_values {V : Type} (trace : List (Nat × V)) :
    (buildKv trace).values = trace.map Prod.snd := by
  suffices h : ∀ m : KvMap V,
      (trace.foldl (fun m e => m.insert e.1 e.2) m).values = m.values ++ trace.map Prod.snd by
    simpa using h KvMap.empty
  induction trace with
  | nil => intro m; simp
  | cons e t ih =>
    intro m
    rw [List.foldl_cons, ih]
    simp [KvMap.insert]

lemma buildHash_data {V : Type} (trace : List (Nat × V)) :
    (buildHash trace).data = trace.foldl (fun d e => stdInsert d e.1 e.2) [] := by
  suffices h : ∀ m : HashMap V,
      (trace.foldl (fun m e => m.insert e.1 e.2) m).data
        = trace.foldl (fun d e => stdInsert d e.1 e.2) m.data by
    simpa using h HashMap.empty
  induction trace with
  | nil => intro m; rfl
  | cons e t ih =>
    intro m
    rw [List.foldl_cons, ih]
    rfl

lemma buildBTree_data {V : Type} (trace : List (Nat × V)) :
    (buildBTree trace).data = trace.foldl (fun d e => stdInsert d e.1 e.2) [] := by
  suffices h : ∀ m : BTreeMap V,
      (trace.foldl (fun m e => m.insert e.1 e.2) m).data
        = trace.foldl (fun d e => stdInsert d e.1 e.2) m.data by
    simpa using h BTreeMap.empty
  induction trace with
  | nil => intro m; rfl
  | cons e t ih =>
    intro m
    rw [List.foldl_cons, ih]
    rfl

/-- Replacement semantics of the std-container model, one step. -/
lemma stdFind_stdInsert {V : Type} (d : List (Nat × V)) (k k' : Nat) (v' : V) :
    stdFind (stdInsert d k' v') k = if k = k' then some v' else stdFind d k := by
  induction d with
  | nil =>
    by_cases hk : k = k'
    · simp [stdInsert, stdFind, hk]
    · simp [stdInsert, stdFind, hk, Ne.symm hk]
  | cons e rest ih =>
    by_cases he : e.1 = k'
    · by_cases hk : k = k'
      · simp [stdInsert, stdFind, he, hk]
      · have hek : e.1 ≠ k := fun h => hk (by rw [← h, he])
        have hk' : k' ≠ k := fun h => hk h.symm
        simp [stdInsert, stdFind, he, hk, hek, hk']
    · by_cases hp : e.1 = k
      · have hk : k ≠ k' := fun h => he (by rw [hp, h])
        simp [stdInsert, stdFind, he, hp, hk]
      · have := ih
        simp only [stdFind] at this
        simp [stdInsert, stdFind, he, hp, this]

/-- Lookup in the std-container models is "last insertion of the key wins". -/
lemma buildHash_find {V : Type} (trace : List (Nat × V)) (k : Nat) :
    (buildHash trace).find k = (trace.reverse.find? (fun e => e.1 == k)).map Prod.snd := by
  induction trace using List.reverseRecOn with
  | nil => rfl
  | append_singleton t e ih =>
    have hstep : buildHash (t ++ [e]) = (buildHash t).insert e.1 e.2 := by
      simp [buildHash, List.foldl_append]
    rw [hstep]
    show stdFind (stdInsert (buildHash t).data e.1 e.2) k = _
    rw [stdFind_stdInsert, List.reverse_append]
    by_cases hk : k = e.1
    · rw [if_pos hk, List.reverse_singleton, List.singleton_append,
        List.find?_cons_of_pos _ (by simp [hk])]
      rfl
    · rw [if_neg hk, List.reverse_singleton, List.singleton_append,
        List.find?_cons_of_neg _ (by simp [Ne.symm hk])]
      exact ih

lemma buildBTree_find {V : Type} (trace : List (Nat × V)) (k : Nat) :
    (buildBTree trace).find k = (buildHash trace).find k := by
  show stdFind _ _ = stdFind _ _
  rw [buildBTree_data, buildHash_data]

/-! BinaryMap: sortedness, permutation, and binary-search correctness. -/

lemma buildBinary_perm {V : Type} (trace : List (Nat × V)) :
    (buildBinary trace).data.Perm trace := by
  induction trace using List.reverseRecOn with
  | nil => exact List.Perm.refl _
  | append_singleton t e ih =>
    have hstep : buildBinary (t ++ [e]) = (buildBinary t).insert e.1 e.2 := by
      simp [buildBinary, List.foldl_append]
    rw [hstep]
    show ((buildBinary t).data ++ [(e.1, e.2)]).mergeSort (fun a b => decide (a.1 ≤ b.1)) |>.Perm _
    exact (List.mergeSort_perm _ _).trans (by simpa using ih.append_right [e])

lemma buildBinary_sorted {V : Type} (trace : List (Nat × V)) :
    (buildBinary trace).data.Pairwise (fun a b => a.1 ≤ b.1) := by
  induction trace using List.reverseRecOn with
  | nil => exact List.Pairwise.nil
  | append_singleton t e _ih =>
    have hstep : buildBinary (t ++ [e]) = (buildBinary t).insert e.1 e.2 := by
      simp [buildBinary, List.foldl_append]
    rw [hstep]
    have h : (((buildBinary t).data ++ [(e.1, e.2)]).mergeSort
        (fun a b => decide (a.1 ≤ b.1))).Pairwise
        (fun a b : Nat × V => decide (a.1 ≤ b.1) = true) := by
      apply List.sorted_mergeSort
      · intro a b c
        simp only [decide_eq_true_eq]
        omega
      · intro a b
        simp only [Bool.or_eq_true, decide_eq_true_eq]
        omega
    exact h.imp (by simp)

lemma keyAt_lt {V : Type} (data : List (Nat × V)) (i : Nat) (h : i < data.length) :
    keyAt data i = (data.get ⟨i, h⟩).1 := by
  simp [keyAt, List.getElem?_eq_getElem h]

/-- On a key-sorted list, `keyAt` is monotone over in-bounds indices. -/
lemma keyAt_mono {V : Type} (data : List (Nat × V))
    (hs : data.Pairwise (fun a b => a.1 ≤ b.1)) (i j : Nat) (hij : i ≤ j)
    (hj : j < data.length) :
    keyAt data i ≤ keyAt data j := by
  rcases Nat.lt_or_ge i j with hlt | hge
  · have hi : i < data.length := Nat.lt_trans hlt hj
    rw [keyAt_lt data i hi, keyAt_lt data j hj]
    exact List.pairwise_iff_get.mp hs ⟨i, hi⟩ ⟨j, hj⟩ hlt
  · have : i = j := Nat.le_antisymm hij hge
    subst this
    exact Nat.le_refl _

/-- A `some` answer of the binary search lies in the window and hits the key. -/
lemma binarySearchGo_some {V : Type} (data : List (Nat × V)) (key : Nat) :
    ∀ n left right, right - left ≤ n → ∀ j,
      binarySearchGo data key left right = some j →
      left ≤ j ∧ j < right ∧ keyAt data j = key := by
  intro n
  induction n with
  | zero =>
    intro left right hn j hj
    rw [binarySearchGo, dif_neg (by omega)] at hj
    cases hj
  | succ n ih =>
    intro left right hn j hj
    by_cases hlr : left < right
    · rw [binarySearchGo, dif_pos hlr] at hj
      by_cases h1 : keyAt data (left + (right - left) / 2) < key
      · rw [if_pos h1] at hj
        have := ih (left + (right - left) / 2 + 1) right (by omega) j hj
        exact ⟨by omega, this.2.1, this.2.2⟩
      · rw [if_neg h1] at hj
        by_cases h2 : key < keyAt data (left + (right - left) / 2)
        · rw [if_pos h2] at hj
          have := ih left (left + (right - left) / 2) (by omega) j hj
          exact ⟨this.1, by omega, this.2.2⟩
        · rw [if_neg h2] at hj
          have hj' : left + (right - left) / 2 = j := by injection hj
          subst hj'
          exact ⟨by omega, by omega, by omega⟩
    · rw [binarySearchGo, dif_neg hlr] at hj
      cases hj

/-- A `none` answer of the binary search means the key is nowhere in the
window, provided the window is within bounds of a key-sorted list. -/
lemma binarySearchGo_none {V : Type} (data : List (Nat × V)) (key : Nat)
    (hs : data.Pairwise (fun a b => a.1 ≤ b.1)) :
    ∀ n left right, right - left ≤ n → right ≤ data.length →
      binarySearchGo data key left right = none →
      ∀ i, left ≤ i → i < right → keyAt data i ≠ key := by
  intro n
  induction n with
  | zero =>
    intro left right hn _hr _hnone i hi1 hi2
    omega
  | succ n ih =>
    intro left right hn hr hnone i hi1 hi2
    have hlr : left < right := by omega
    rw [binarySearchGo, dif_pos hlr] at hnone
    by_cases h1 : keyAt data (left + (right - left) / 2) < key
    · rw [if_pos h1] at hnone
      rcases Nat.lt_or_ge (left + (right - left) / 2) i with hgt | hle
      · exact ih (left + (right - left) / 2 + 1) right (by omega) hr hnone i (by omega) hi2
      · have hmono := keyAt_mono data hs i (left + (right - left) / 2) hle (by omega)
        omega
    · rw [if_neg h1] at hnone
      by_cases h2 : key < keyAt data (left + (right - left) / 2)
      · rw [if_pos h2] at hnone
        rcases Nat.lt_or_ge i (left + (right - left) / 2) with hlt | hge
        · exact ih left (left + (right - left) / 2) (by omega) (by omega) hnone i hi1 hlt
        · have hmono := keyAt_mono data hs (left + (right - left) / 2) i hge (by omega)
          omega
      · rw [if_neg h2] at hnone
        cases hnone

/-! SIMD maps: invariant preservation and reachable-state characterization. -/

lemma simdInv_insert {V : Type} (W : Nat) (hW : 0 < W) (m : SimdMap V) (k : Nat) (v : V)
    (h : SimdInv W m) : SimdInv W (m.insert W k v) := by
  obtain ⟨hdvd, hnv, hle, hpad⟩ := h
  by_cases hgrow : m.next = m.keys.length
  · refine ⟨?_, ?_, ?_, ?_⟩
    · simp only [SimdMap.insert, if_pos hgrow, List.length_set, List.length_append,
        List.length_replicate]
      exact dvd_add hdvd dvd_rfl
    · simp [SimdMap.insert, hnv]
    · simp only [SimdMap.insert, if_pos hgrow, List.length_set, List.length_append,
        List.length_replicate]
      omega
    · intro i hi1 hi2
      simp only [SimdMap.insert, if_pos hgrow, List.length_set, List.length_append,
        List.length_replicate] at hi1 hi2 ⊢
      rw [List.getElem?_set_ne (by omega)]
      rw [List.getElem?_append_right (by omega)]
      exact List.getElem?_replicate_of_lt (by omega)
  · refine ⟨?_, ?_, ?_, ?_⟩
    · simpa only [SimdMap.insert, if_neg hgrow, List.length_set] using hdvd
    · simp [SimdMap.insert, hnv]
    · simp only [SimdMap.insert, if_neg hgrow, List.length_set]
      omega
    · intro i hi1 hi2
      simp only [SimdMap.insert, if_neg hgrow, List.length_set] at hi1 hi2 ⊢
      rw [List.getElem?_set_ne (by omega)]
      exact hpad i (by omega) hi2

lemma simdChar_insert {V : Type} (W : Nat) (hW : 0 < W) (trace : List (Nat × V))
    (m : SimdMap V) (h : SimdChar W trace m) (k : Nat) (v : V) :
    SimdChar W (trace ++ [(k, v)]) (m.insert W k v) := by
  obtain ⟨hnext, hvals, hdvd, hle, hkeys⟩ := h
  have hgen : (trace.map Prod.fst).length = trace.length := List.length_map _ _
  by_cases hgrow : m.next = m.keys.length
  · have hlen : m.keys.length = trace.length := by omega
    have hkeys' : m.keys = trace.map Prod.fst := by
      simpa [hlen] using hkeys
    have h1 : (m.insert W k v).keys = (trace.map Prod.fst ++ [k]) ++ List.replicate (W - 1) 0 := by
      simp only [SimdMap.insert, if_pos hgrow]
      rw [hkeys', List.set_append_right _ _ (by omega)]
      have hidx : m.next - (trace.map Prod.fst).length = 0 := by omega
      rw [hidx]
      obtain ⟨W', rfl⟩ : ∃ W', W = W' + 1 := ⟨W - 1, by omega⟩
      rw [List.replicate_succ]
      simp [List.append_assoc]
    have hlen1 : (m.insert W k v).keys.length = trace.length + W := by
      rw [h1]
      simp only [List.length_append, List.length_map, List.length_cons, List.length_nil,
        List.length_replicate]
      omega
    refine ⟨?_, ?_, ?_, ?_, ?_⟩
    · simp [SimdMap.insert, if_pos hgrow, hnext]
    · simp [SimdMap.insert, hvals]
    · rw [hlen1, ← hlen]
      exact dvd_add hdvd dvd_rfl
    · rw [hlen1]
      simp only [List.length_append, List.length_cons, List.length_nil]
      omega
    · have hpad : (m.insert W k v).keys.length - (trace ++ [(k, v)]).length = W - 1 := by
        rw [hlen1]
        simp only [List.length_append, List.length_cons, List.length_nil]
        omega
      rw [h1] at hpad
      rw [h1, hpad]
      simp
  · have hlt : m.next < m.keys.length := by omega
    have h1 : (m.insert W k v).keys
        = (trace.map Prod.fst ++ [k]) ++ List.replicate (m.keys.length - trace.length - 1) 0 := by
      simp only [SimdMap.insert, if_neg hgrow]
      conv =>
        lhs
        rw [hkeys]
      rw [List.set_append_right _ _ (by omega)]
      have hidx : m.next - (trace.map Prod.fst).length = 0 := by omega
      rw [hidx]
      obtain ⟨p, hp⟩ : ∃ p, m.keys.length - trace.length = p + 1 :=
        ⟨m.keys.length - trace.length - 1, by omega⟩
      rw [hp, List.replicate_succ]
      simp [List.append_assoc, hp]
    have hlen1 : (m.insert W k v).keys.length = m.keys.length := by
      simp [SimdMap.insert, if_neg hgrow]
    refine ⟨?_, ?_, ?_, ?_, ?_⟩
    · simp [SimdMap.insert, if_neg hgrow, hnext]
    · simp [SimdMap.insert, hvals]
    · rw [hlen1]
      exact hdvd
    · rw [hlen1]
      simp only [List.length_append, List.length_cons, List.length_nil]
      omega
    · have hpad : (m.insert W k v).keys.length - (trace ++ [(k, v)]).length
          = m.keys.length - trace.length - 1 := by
        rw [hlen1]
        simp only [List.length_append, List.length_cons, List.length_nil]
        omega
      rw [h1] at hpad
      rw [h1, hpad]
      simp

lemma simdFindGo_cons {V : Type} (W : Nat) (keys : List Nat) (values : List V)
    (key index : Nat) (rest : List Nat) :
    simdFindGo W keys values key (index :: rest)
      = match simdBlockZeros keys index W key with
        | some zeros => values[index + zeros]?
        | none => simdFindGo W keys values key rest := rfl

/-- The block loop equals a single global first-index search followed by the
`values.get` guard, whenever the key buffer is a whole number of blocks:
blocks are visited left to right and the first matching lane of the first
matching block is the globally first matching slot. -/
lemma simdFindGo_spec {V : Type} (W : Nat) (keys : List Nat) (values : List V)
    (key : Nat) :
    ∀ nb s, keys.length = s + nb * W →
      simdFindGo W keys values key (List.range' s nb W)
        = ((keys.drop s).findIdx? (fun lane => lane == key)).bind
            (fun i => values[s + i]?) := by
  intro nb
  induction nb with
  | zero =>
    intro s hs
    have hdrop : keys.drop s = [] := List.drop_eq_nil_of_le (by omega)
    simp [simdFindGo, hdrop]
  | succ nb ih =>
    intro s hs
    rw [Nat.succ_mul] at hs
    rw [List.range'_succ, simdFindGo_cons]
    have htake : simdBlockZeros keys s W key
        = ((keys.drop s).findIdx? (fun lane => lane == key)).bind
            (Option.guard (fun i => i < W)) := by
      rw [simdBlockZeros, List.findIdx?_take]
    have hsplit : (keys.drop s).take W ++ (keys.drop s).drop W = keys.drop s :=
      List.take_append_drop W (keys.drop s)
    have hdd : (keys.drop s).drop W = keys.drop (s + W) := List.drop_drop W s keys
    have htlen : ((keys.drop s).take W).length = W := by
      rw [List.length_take]
      have : (keys.drop s).length = nb * W + W := by
        rw [List.length_drop]
        omega
      omega
    rcases hfi : (keys.drop s).findIdx? (fun lane => lane == key) with _ | i
    · have hblock : simdBlockZeros keys s W key = none := by
        rw [htake, hfi]
        rfl
      rw [hblock, ih (s + W) (by omega)]
      have hnone : (keys.drop (s + W)).findIdx? (fun lane => lane == key) = none := by
        rw [← hdd]
        rw [List.findIdx?_eq_none_iff] at hfi ⊢
        intro x hx
        exact hfi x (List.mem_of_mem_drop hx)
      rw [hnone]
      rfl
    · by_cases hiW : i < W
      · have hblock : simdBlockZeros keys s W key = some i := by
          rw [htake, hfi]
          simp [Option.guard, hiW]
        rw [hblock]
        rfl
      · have hblock : simdBlockZeros keys s W key = none := by
          rw [htake, hfi]
          simp [Option.guard, hiW]
        rw [hblock, ih (s + W) (by omega)]
        have happ : ((keys.drop s).take W ++ (keys.drop s).drop W).findIdx?
              (fun lane => lane == key)
            = (((keys.drop s).take W).findIdx? (fun lane => lane == key)).or
              ((((keys.drop s).drop W).findIdx? (fun lane => lane == key)).map
                (fun i => i + ((keys.drop s).take W).length)) :=
          List.findIdx?_append
        rw [hsplit, hfi] at happ
        have htnone : ((keys.drop s).take W).findIdx? (fun lane => lane == key) = none := by
          rw [List.findIdx?_take, hfi]
          simp [Option.guard, hiW]
        rw [htnone, htlen] at happ
        rcases hdi : ((keys.drop s).drop W).findIdx? (fun lane => lane == key) with _ | j
        · rw [hdi] at happ
          simp at happ
        · rw [hdi] at happ
          simp only [Option.none_or, Option.map_some', Option.some.injEq] at happ
          rw [← hdd, hdi]
          have harith : s + W + j = s + i := by omega
          simp only [Option.some_bind, harith]

lemma buildSimd_char {V : Type} (W : Nat) (hW : 0 < W) (trace : List (Nat × V)) :
    SimdChar W trace (buildSimd W trace) := by
  induction trace using List.reverseRecOn with
  | nil =>
    exact ⟨rfl, rfl, dvd_zero W, Nat.le_refl 0, by simp [buildSimd, SimdMap.empty]⟩
  | append_singleton t e ih =>
    have hstep : buildSimd W (t ++ [e]) = (buildSimd W t).insert W e.1 e.2 := by
      simp [buildSimd, List.foldl_append]
    rw [hstep]
    simpa using simdChar_insert W hW t _ ih e.1 e.2

lemma simdMap_find_eq {V : Type} (W : Nat) (hW : 0 < W) (m : SimdMap V)
    (hdvd : W ∣ m.keys.length) (key : Nat) :
    SimdMap.find W m key
      = (m.keys.findIdx? (fun lane => lane == key)).bind (fun i => m.values[i]?) := by
  obtain ⟨q, hq⟩ := hdvd
  have hsteps : (m.keys.length + (W - 1)) / W = q := by
    rw [hq, Nat.mul_add_div hW, Nat.div_eq_of_lt (by omega), Nat.add_zero]
  rw [SimdMap.find, stepIndices, hsteps]
  have hspec := simdFindGo_spec W m.keys m.values key q 0
    (by rw [hq, Nat.mul_comm]; omega)
  rw [hspec]
  simp

/-- On a reachable SIMD state, if the queried key occurs among the inserted
keys, `find` returns the value slot of its first occurrence. -/
lemma buildSimd_find_some {V : Type} (W : Nat) (hW : 0 < W) (trace : List (Nat × V))
    (key i : Nat)
    (hfi : (trace.map Prod.fst).findIdx? (fun lane => lane == key) = some i) :
    SimdMap.find W (buildSimd W trace) key = (trace.map Prod.snd)[i]? := by
  obtain ⟨hnext, hvals, hdvd, hle, hkeys⟩ := buildSimd_char W hW trace
  rw [simdMap_find_eq W hW _ hdvd key, hkeys, hvals, List.findIdx?_append, hfi]
  rfl

/-- On a reachable SIMD state, if the queried key never occurs among the
inserted keys, `find` returns `none` — even for key 0, whose only possible
match is in padding and is then rejected by the `values.get` guard. -/
lemma buildSimd_find_none {V : Type} (W : Nat) (hW : 0 < W) (trace : List (Nat × V))
    (key : Nat)
    (hfi : (trace.map Prod.fst).findIdx? (fun lane => lane == key) = none) :
    SimdMap.find W (buildSimd W trace) key = none := by
  obtain ⟨hnext, hvals, hdvd, hle, hkeys⟩ := buildSimd_char W hW trace
  rw [simdMap_find_eq W hW _ hdvd key, hkeys, hvals, List.findIdx?_append, hfi,
    List.findIdx?_replicate]
  split
  · simp only [Option.none_or, Option.map_some', Option.some_bind]
    rw [List.getElem?_eq_none]
    simp
  · rfl

/-- Every block offset visited by the find loop leaves at least `W` lanes
to load, when the key buffer length is a multiple of `W`. -/
lemma stepIndices_load_ok (len W : Nat) (hW : 0 < W) (hdvd : W ∣ len) :
    ∀ index ∈ stepIndices len W, index + W ≤ len := by
  intro index hmem
  obtain ⟨q, rfl⟩ := hdvd
  have hq : (W * q + (W - 1)) / W = q := by
    rw [Nat.mul_add_div hW, Nat.div_eq_of_lt (by omega), Nat.add_zero]
  rw [stepIndices, hq, List.mem_range'] at hmem
  obtain ⟨j, hj, rfl⟩ := hmem
  have h1 : W * (j + 1) = W * j + W := Nat.mul_succ W j
  have h2 : W * (j + 1) ≤ W * q := Nat.mul_le_mul_left W hj
  omega

/-- If exactly one stored pair has the queried key, `BinaryMap.find`
returns its value. -/
lemma buildBinary_find_singleton {V : Type} (trace : List (Nat × V)) (k : Nat) (v : V)
    (h : trace.filter (fun e => e.1 == k) = [(k, v)]) :
    (buildBinary trace).find k = some v := by
  have hperm := buildBinary_perm trace
  have hsort := buildBinary_sorted trace
  have hfilter : (buildBinary trace).data.filter (fun e => e.1 == k) = [(k, v)] := by
    have hp := hperm.filter (fun e => e.1 == k)
    rw [h] at hp
    exact List.perm_singleton.mp hp
  have hmem : (k, v) ∈ (buildBinary trace).data := by
    have hm : (k, v) ∈ (buildBinary trace).data.filter (fun e => e.1 == k) := by
      rw [hfilter]
      exact List.mem_singleton_self _
    exact List.mem_of_mem_filter hm
  obtain ⟨idx, hidx⟩ := List.mem_iff_get.mp hmem
  simp only [BinaryMap.find]
  rcases hbs : binarySearchGo (buildBinary trace).data k 0 (buildBinary trace).data.length
    with _ | j
  · exfalso
    have hnone := binarySearchGo_none (buildBinary trace).data k hsort
      (buildBinary trace).data.length 0 (buildBinary trace).data.length
      (by omega) (Nat.le_refl _) hbs idx.1 (Nat.zero_le _) idx.2
    apply hnone
    rw [keyAt_lt _ _ idx.2]
    simp only [Fin.eta, hidx]
  · have hsome := binarySearchGo_some (buildBinary trace).data k
      (buildBinary trace).data.length 0 (buildBinary trace).data.length (Nat.le_refl _) j hbs
    have hj : j < (buildBinary trace).data.length := hsome.2.1
    have hkey : ((buildBinary trace).data.get ⟨j, hj⟩).1 = k := by
      rw [← keyAt_lt _ _ hj]
      exact hsome.2.2
    have hkey' : (buildBinary trace).data[j].1 = k := by
      simpa using hkey
    have hmemj : (buildBinary trace).data.get ⟨j, hj⟩
        ∈ (buildBinary trace).data.filter (fun e => e.1 == k) :=
      List.mem_filter.mpr ⟨List.get_mem _ _ _, by simp [hkey']⟩
    rw [hfilter, List.mem_singleton] at hmemj
    show Option.map Prod.snd (buildBinary trace).data[j]? = some v
    rw [List.getElem?_eq_getElem hj]
    have hmemj' : (buildBinary trace).data[j] = (k, v) := by
      simpa using hmemj
    rw [Option.map_some', hmemj']

/-- If no stored pair has the queried key, `BinaryMap.find` returns `none`. -/
lemma buildBinary_find_not_mem {V : Type} (trace : List (Nat × V)) (k : Nat)
    (h : ∀ e ∈ trace, e.1 ≠ k) :
    (buildBinary trace).find k = none := by
  have hperm := buildBinary_perm trace
  simp only [BinaryMap.find]
  rcases hbs : binarySearchGo (buildBinary trace).data k 0 (buildBinary trace).data.length
    with _ | j
  · rfl
  · exfalso
    have hsome := binarySearchGo_some (buildBinary trace).data k
      (buildBinary trace).data.length 0 (buildBinary trace).data.length (Nat.le_refl _) j hbs
    have hj : j < (buildBinary trace).data.length := hsome.2.1
    have hkey : ((buildBinary trace).data.get ⟨j, hj⟩).1 = k := by
      rw [← keyAt_lt _ _ hj]
      exact hsome.2.2
    exact h _ (hperm.mem_iff.mp (List.get_mem _ _ _)) hkey

/-- If position `i` holds the first pair whose key is `k`, the first-index
search over the key column finds exactly `i`. -/
lemma findIdx?_map_fst_first {V : Type} (tr : List (Nat × V)) (k : Nat) (i : Nat) (v : V)
    (hi : tr[i]? = some (k, v))
    (hfirst : ∀ h, h < i → tr[h]?.map Prod.fst ≠ some k) :
    (tr.map Prod.fst).findIdx? (fun lane => lane == k) = some i := by
  have hilen : i < tr.length := by
    by_contra hge
    rw [List.getElem?_eq_none (by omega)] at hi
    cases hi
  rw [List.findIdx?_eq_some_iff_getElem]
  refine ⟨by simpa using hilen, ?_, ?_⟩
  · have hik : (tr.map Prod.fst)[i]? = some k := by
      rw [List.getElem?_map, hi]
      rfl
    rw [List.getElem?_eq_getElem (by simpa using hilen)] at hik
    simp only [Option.some.injEq] at hik
    simp [hik]
  · intro h hh
    intro hp
    apply hfirst h hh
    have hhlen : h < tr.length := by omega
    have hval : (tr.map Prod.fst)[h]? = some k := by
      rw [List.getElem?_eq_getElem (by simpa using hhlen)]
      simpa using hp
    rw [List.getElem?_map] at hval
    exact hval

/-- Soundness of SIMD find on reachable states: any returned value sits at a
genuine slot index `< next`, whose key slot holds the queried key. -/
lemma buildSimd_find_sound {V : Type} (W : Nat) (hW : 0 < W) (trace : List (Nat × V))
    (k : Nat) (v : V)
    (h : SimdMap.find W (buildSimd W trace) k = some v) :
    ∃ i, i < (buildSimd W trace).next ∧
      (buildSimd W trace).keys[i]? = some k ∧
      (buildSimd W trace).values[i]? = some v := by
  obtain ⟨hnext, hvals, hdvd, hle, hkeys⟩ := buildSimd_char W hW trace
  rcases hfi : (trace.map Prod.fst).findIdx? (fun lane => lane == k) with _ | i
  · rw [buildSimd_find_none W hW trace k hfi] at h
    cases h
  · have hvi : (trace.map Prod.snd)[i]? = some v := by
      rw [← buildSimd_find_some W hW trace k i hfi]
      exact h
    have hilen : i < trace.length := by
      by_contra hge
      rw [List.getElem?_eq_none (by simpa using hge)] at hvi
      cases hvi
    have hkk : (trace.map Prod.fst)[i]? = some k := by
      have hmatch := List.findIdx?_of_eq_some hfi
      have hmlen : i < (trace.map Prod.fst).length := by simpa using hilen
      have hget := List.getElem?_eq_getElem hmlen
      rw [hget] at hmatch ⊢
      simp only [beq_iff_eq] at hmatch
      simp [hmatch]
    refine ⟨i, ?_, ?_, ?_⟩
    · omega
    · rw [hkeys, List.getElem?_append_left (by simpa using hilen)]
      exact hkk
    · rw [hvals]
      exact hvi

/-! Claim theorems. -/

/-- C6: for every variant and every key k — including k = 0 for the SIMD
variants — if no pair with key k has been inserted then find(k) returns
"absent"; in particular on a freshly constructed (default) empty map,
find(K) returns "absent" for every K. -/
theorem find_absent {V : Type} (trace : List (Nat × V)) (k : Nat)
    (habs : ∀ e ∈ trace, e.1 ≠ k) :
    ((buildLinear trace).find k = none ∧
      (buildKv trace).find k = none ∧
      (buildBinary trace).find k = none ∧
      (buildHash trace).find k = none ∧
      (buildBTree trace).find k = none ∧
      SimdMap.find 8 (buildSimd 8 trace) k = none ∧
      SimdMap.find 16 (buildSimd 16 trace) k = none) ∧
    (∀ K : Nat,
      (LinearMap.empty : LinearMap V).find K = none ∧
      (KvMap.empty : KvMap V).find K = none ∧
      (BinaryMap.empty : BinaryMap V).find K = none ∧
      (HashMap.empty : HashMap V).find K = none ∧
      (BTreeMap.empty : BTreeMap V).find K = none ∧
      SimdMap.find 8 (SimdMap.empty : SimdMap V) K = none ∧
      SimdMap.find 16 (SimdMap.empty : SimdMap V) K = none) := by
  have hfi : (trace.map Prod.fst).findIdx? (fun stored => stored == k) = none := by
    rw [List.findIdx?_eq_none_iff]
    intro x hx
    obtain ⟨e, he, rfl⟩ := List.mem_map.mp hx
    simp [habs e he]
  have hhash : (buildHash trace).find k = none := by
    rw [buildHash_find]
    have hn : trace.reverse.find? (fun e => e.1 == k) = none :=
      List.find?_eq_none.mpr (fun x hx => by simp [habs x (List.mem_reverse.mp hx)])
    rw [hn]
    rfl
  constructor
  · refine ⟨?_, ?_, ?_, hhash, ?_, ?_, ?_⟩
    · simp only [LinearMap.find, buildLinear_data]
      have hn : trace.find? (fun e => e.1 == k) = none :=
        List.find?_eq_none.mpr (fun x hx => by simp [habs x hx])
      rw [hn]
      rfl
    · simp only [KvMap.find, buildKv_keys, hfi]
    · exact buildBinary_find_not_mem trace k habs
    · rw [buildBTree_find]
      exact hhash
    · exact buildSimd_find_none 8 (by omega) trace k hfi
    · exact buildSimd_find_none 16 (by omega) trace k hfi
  · intro K
    refine ⟨rfl, rfl, ?_, rfl, rfl,
      buildSimd_find_none 8 (by omega) [] K rfl,
      buildSimd_find_none 16 (by omega) [] K rfl⟩
    simp only [BinaryMap.find]
    rw [binarySearchGo, dif_neg (show ¬0 < (BinaryMap.empty : BinaryMap V).data.length from
      Nat.lt_irrefl 0)]

/-- C2: after insert(k, v), a subsequent find(k) returns v in every variant,
provided k was inserted exactly once (and, for the SIMD variants, k ≠ 0);
the statement quantifies over whole traces, so it covers in particular
traces whose length is a multiple of the lane width (block edges). -/
theorem insert_then_find {V : Type} (trace : List (Nat × V)) (k : Nat) (v : V)
    (honce : trace.filter (fun e => e.1 == k) = [(k, v)]) :
    (buildLinear trace).find k = some v ∧
    (buildKv trace).find k = some v ∧
    (buildBinary trace).find k = some v ∧
    (buildHash trace).find k = some v ∧
    (buildBTree trace).find k = some v ∧
    (k ≠ 0 → SimdMap.find 8 (buildSimd 8 trace) k = some v) ∧
    (k ≠ 0 → SimdMap.find 16 (buildSimd 16 trace) k = some v) := by
  obtain ⟨i, hfind, hget⟩ := filter_singleton_findIdx? (fun e => e.1 == k) trace (k, v) honce
  have hfi : (trace.map Prod.fst).findIdx? (fun stored => stored == k) = some i := by
    rw [List.findIdx?_map]
    exact hfind
  have hsnd : (trace.map Prod.snd)[i]? = some v := by
    rw [List.getElem?_map, hget]
    rfl
  have hhash : (buildHash trace).find k = some v := by
    rw [buildHash_find, find?_eq_head_filter]
    have hrev : trace.reverse.filter (fun e => e.1 == k) = [(k, v)] := by
      rw [List.filter_reverse, honce]
      rfl
    rw [hrev]
    rfl
  refine ⟨?_, ?_, ?_, hhash, ?_, ?_, ?_⟩
  · simp only [LinearMap.find, buildLinear_data]
    rw [find?_eq_head_filter, honce]
    rfl
  · simp only [KvMap.find, buildKv_keys, buildKv_values, hfi]
    exact hsnd
  · exact buildBinary_find_singleton trace k v honce
  · rw [buildBTree_find]
    exact hhash
  · intro _hk
    rw [buildSimd_find_some 8 (by omega) trace k i hfi]
    exact hsnd
  · intro _hk
    rw [buildSimd_find_some 16 (by omega) trace k i hfi]
    exact hsnd

/-- C1: for SimdMap8 and SimdMap16, after any insertions of non-zero keys,
a find with a non-zero key never returns a padding slot: `values` has
length exactly `next` (so `values.get` realises the `index < next` guard),
and any returned value sits at a genuine index `< next` whose key slot
holds the queried key. -/
theorem simd_no_padding_reference {V : Type} (trace : List (Nat × V)) (k : Nat)
    (_hkeys0 : ∀ e ∈ trace, e.1 ≠ 0) (_hk : k ≠ 0) :
    ((buildSimd 8 trace : SimdMap V).values.length = (buildSimd 8 trace).next ∧
      ∀ v : V, SimdMap.find 8 (buildSimd 8 trace) k = some v →
        ∃ i, i < (buildSimd 8 trace).next ∧
          (buildSimd 8 trace).keys[i]? = some k ∧
          (buildSimd 8 trace).values[i]? = some v) ∧
    ((buildSimd 16 trace : SimdMap V).values.length = (buildSimd 16 trace).next ∧
      ∀ v : V, SimdMap.find 16 (buildSimd 16 trace) k = some v →
        ∃ i, i < (buildSimd 16 trace).next ∧
          (buildSimd 16 trace).keys[i]? = some k ∧
          (buildSimd 16 trace).values[i]? = some v) := by
  constructor
  · obtain ⟨hnext, hvals, -, -, -⟩ := buildSimd_char 8 (by omega) trace
    exact ⟨by rw [hnext, hvals]; simp,
      fun v hv => buildSimd_find_sound 8 (by omega) trace k v hv⟩
  · obtain ⟨hnext, hvals, -, -, -⟩ := buildSimd_char 16 (by omega) trace
    exact ⟨by rw [hnext, hvals]; simp,
      fun v hv => buildSimd_find_sound 16 (by omega) trace k v hv⟩

/-- C3: SIMD insert preserves the structural invariant, and acts exactly as
described: it grows `keys` by `W` zero-initialised slots when full (leaving
every new slot other than the one written equal to 0), writes the key at
index `next`, increments `next`, and appends the value. -/
theorem simd_insert_preserves_inv {V : Type} (W : Nat) (m : SimdMap V) (k : Nat) (v : V)
    (hW : W = 8 ∨ W = 16) (hinv : SimdInv W m) :
    SimdInv W (m.insert W k v) ∧
    (m.insert W k v).next = m.next + 1 ∧
    (m.insert W k v).values = m.values ++ [v] ∧
    (m.next = m.keys.length →
      (m.insert W k v).keys.length = m.keys.length + W ∧
      ∀ i, m.keys.length ≤ i → i < m.keys.length + W → i ≠ m.next →
        (m.insert W k v).keys[i]? = some 0) ∧
    (m.next ≠ m.keys.length → (m.insert W k v).keys.length = m.keys.length) ∧
    (m.insert W k v).keys[m.next]? = some k := by
  have hW0 : 0 < W := by rcases hW with h | h <;> omega
  obtain ⟨hdvd, hnv, hle, hpad⟩ := hinv
  refine ⟨simdInv_insert W hW0 m k v ⟨hdvd, hnv, hle, hpad⟩, rfl, rfl, ?_, ?_, ?_⟩
  · intro hgrow
    constructor
    · simp [SimdMap.insert, if_pos hgrow]
    · intro i hi1 hi2 hi3
      simp only [SimdMap.insert, if_pos hgrow]
      rw [List.getElem?_set_ne (fun hcontra => hi3 hcontra.symm)]
      rw [List.getElem?_append_right (by omega)]
      exact List.getElem?_replicate_of_lt (by omega)
  · intro hngrow
    simp [SimdMap.insert, if_neg hngrow]
  · by_cases hgrow : m.next = m.keys.length
    · simp only [SimdMap.insert, if_pos hgrow]
      apply List.getElem?_set_self
      simp only [List.length_append, List.length_replicate]
      omega
    · simp only [SimdMap.insert, if_neg hgrow]
      apply List.getElem?_set_self
      omega

/-- C4: for the SIMD variants, if the same key is inserted exactly twice,
at positions i < j, find of that key returns the value inserted at
position i: blocks are scanned in increasing offset order and the
trailing-zero count selects the smallest matching lane. -/
theorem simd_first_match {V : Type} (tr : List (Nat × V)) (k : Nat) (i j : Nat) (vi : V)
    (hij : i < j) (hjlen : j < tr.length)
    (hi : tr[i]? = some (k, vi))
    (hj : tr[j]?.map Prod.fst = some k)
    (htwice : ∀ h, h < tr.length → tr[h]?.map Prod.fst = some k → h = i ∨ h = j) :
    SimdMap.find 8 (buildSimd 8 tr) k = some vi ∧
    SimdMap.find 16 (buildSimd 16 tr) k = some vi := by
  have hfirst : ∀ h, h < i → tr[h]?.map Prod.fst ≠ some k := by
    intro h hh hcontra
    rcases htwice h (by omega) hcontra with rfl | rfl
    · omega
    · omega
  have hfi := findIdx?_map_fst_first tr k i vi hi hfirst
  have hsnd : (tr.map Prod.snd)[i]? = some vi := by
    rw [List.getElem?_map, hi]
    rfl
  constructor
  · rw [buildSimd_find_some 8 (by omega) tr k i hfi]
    exact hsnd
  · rw [buildSimd_find_some 16 (by omega) tr k i hfi]
    exact hsnd

/-- C10: SIMD find is fully correct even for key 0: if 0 was never
inserted, the padding match is rejected by the `values.get` guard and
find(0) returns "absent"; if 0 was inserted, find(0) returns the value of
the first-inserted 0, since genuine slots precede padding. -/
theorem simd_key_zero {V : Type} (tr : List (Nat × V)) (i : Nat) (v0 : V) :
    ((∀ e ∈ tr, e.1 ≠ 0) →
      SimdMap.find 8 (buildSimd 8 tr) 0 = none ∧
      SimdMap.find 16 (buildSimd 16 tr) 0 = none) ∧
    (tr[i]? = some (0, v0) →
      (∀ h, h < i → tr[h]?.map Prod.fst ≠ some 0) →
      SimdMap.find 8 (buildSimd 8 tr) 0 = some v0 ∧
      SimdMap.find 16 (buildSimd 16 tr) 0 = some v0) := by
  constructor
  · intro habs
    have hfi : (tr.map Prod.fst).findIdx? (fun lane => lane == 0) = none := by
      rw [List.findIdx?_eq_none_iff]
      intro x hx
      obtain ⟨e, he, rfl⟩ := List.mem_map.mp hx
      simp [habs e he]
    exact ⟨buildSimd_find_none 8 (by omega) tr 0 hfi,
      buildSimd_find_none 16 (by omega) tr 0 hfi⟩
  · intro hi hfirst
    have hfi := findIdx?_map_fst_first tr 0 i v0 hi hfirst
    have hsnd : (tr.map Prod.snd)[i]? = some v0 := by
      rw [List.getElem?_map, hi]
      rfl
    constructor
    · rw [buildSimd_find_some 8 (by omega) tr 0 i hfi]
      exact hsnd
    · rw [buildSimd_find_some 16 (by omega) tr 0 i hfi]
      exact hsnd

/-- C5 counterexample: for the HashMap and BTreeMap variants a later
insertion of an already-present key does NOT produce a second record — the
single stored record is replaced, refuting the claim for these two of the
seven variants. -/
theorem insert_overwrite_counterexample :
    (((HashMap.empty : HashMap Nat).insert 3 1).insert 3 2).data = [(3, 2)] ∧
    ((3, 1) ∉ (((HashMap.empty : HashMap Nat).insert 3 1).insert 3 2).data) ∧
    (((BTreeMap.empty : BTreeMap Nat).insert 3 1).insert 3 2).data = [(3, 2)] ∧
    ((3, 1) ∉ (((BTreeMap.empty : BTreeMap Nat).insert 3 1).insert 3 2).data) := by
  decide

/-- C5 (amended): for the five variants implemented in the repository —
LinearMap, KvMap, BinaryMap, SimdMap8, SimdMap16 — insert never fails and
never overwrites in-place: the stored records are exactly the inserted
pairs (in particular a re-inserted key yields a second record); HashMap
and BTreeMap instead replace on equal-key reinsert. -/
theorem insert_total_no_overwrite {V : Type} (trace : List (Nat × V)) :
    (buildLinear trace).data = trace ∧
    (buildKv trace).keys = trace.map Prod.fst ∧
    (buildKv trace).values = trace.map Prod.snd ∧
    (buildBinary trace).data.Perm trace ∧
    ((buildSimd 8 trace : SimdMap V).next = trace.length ∧
      (buildSimd 8 trace).values = trace.map Prod.snd ∧
      (buildSimd 8 trace).keys = trace.map Prod.fst
        ++ List.replicate ((buildSimd 8 trace).keys.length - trace.length) 0) ∧
    ((buildSimd 16 trace : SimdMap V).next = trace.length ∧
      (buildSimd 16 trace).values = trace.map Prod.snd ∧
      (buildSimd 16 trace).keys = trace.map Prod.fst
        ++ List.replicate ((buildSimd 16 trace).keys.length - trace.length) 0) := by
  obtain ⟨h8next, h8vals, -, -, h8keys⟩ := buildSimd_char 8 (by omega) trace
  obtain ⟨h16next, h16vals, -, -, h16keys⟩ := buildSimd_char 16 (by omega) trace
  exact ⟨buildLinear_data trace, buildKv_keys trace, buildKv_values trace,
    buildBinary_perm trace, ⟨h8next, h8vals, h8keys⟩, ⟨h16next, h16vals, h16keys⟩⟩

/-- C7: find is total on reachable states: the index returned by the binary
search is in bounds of the data vector (`get_unchecked` safe); KvMap's key
and value columns index-align and the position found in the key column is
in bounds of the value column; and every block offset visited by the SIMD
loop leaves at least `W` lanes to load. -/
theorem find_total {V : Type} (trace : List (Nat × V)) (k : Nat) :
    (∀ j, binarySearchGo (buildBinary trace).data k 0 (buildBinary trace).data.length
        = some j → j < (buildBinary trace).data.length) ∧
    ((buildKv trace).keys.length = (buildKv trace).values.length ∧
      ∀ i, (buildKv trace).keys.findIdx? (fun stored => stored == k) = some i →
        i < (buildKv trace).values.length) ∧
    (∀ index ∈ stepIndices (buildSimd 8 trace : SimdMap V).keys.length 8,
      8 ≤ ((buildSimd 8 trace).keys.drop index).length) ∧
    (∀ index ∈ stepIndices (buildSimd 16 trace : SimdMap V).keys.length 16,
      16 ≤ ((buildSimd 16 trace).keys.drop index).length) := by
  refine ⟨?_, ⟨?_, ?_⟩, ?_, ?_⟩
  · intro j hj
    exact (binarySearchGo_some (buildBinary trace).data k (buildBinary trace).data.length
      0 (buildBinary trace).data.length (Nat.le_refl _) j hj).2.1
  · rw [buildKv_keys, buildKv_values]
    simp
  · intro i hfi
    have hibound := (List.findIdx?_eq_some_iff_findIdx_eq.mp hfi).1
    rw [buildKv_keys] at hibound
    rw [buildKv_values]
    simpa using hibound
  · obtain ⟨-, -, hdvd, -, -⟩ := buildSimd_char 8 (by omega) trace
    intro index hmem
    have hload := stepIndices_load_ok _ 8 (by omega) hdvd index hmem
    rw [List.length_drop]
    omega
  · obtain ⟨-, -, hdvd, -, -⟩ := buildSimd_char 16 (by omega) trace
    intro index hmem
    have hload := stepIndices_load_ok _ 16 (by omega) hdvd index hmem
    rw [List.length_drop]
    omega

/-- C8: BinaryMap's vector is sorted ascending by key after every insertion
sequence, no records are lost (the stored records are a permutation of the
inserted ones), and the S5 scenario holds: after inserting (7,a), (1,b),
(5,c), find(1) = b, find(5) = c, find(7) = a. -/
theorem binary_sorted_no_loss {V : Type} (trace : List (Nat × V)) :
    ((buildBinary trace).data.Pairwise (fun x y => x.1 ≤ y.1) ∧
      (buildBinary trace).data.Perm trace) ∧
    (∀ a b c : Nat,
      (buildBinary [(7, a), (1, b), (5, c)]).find 1 = some b ∧
      (buildBinary [(7, a), (1, b), (5, c)]).find 5 = some c ∧
      (buildBinary [(7, a), (1, b), (5, c)]).find 7 = some a) := by
  refine ⟨⟨buildBinary_sorted trace, buildBinary_perm trace⟩, ?_⟩
  intro a b c
  exact ⟨buildBinary_find_singleton _ 1 b rfl,
    buildBinary_find_singleton _ 5 c rfl,
    buildBinary_find_singleton _ 7 a rfl⟩

/-- C9: inserting a second value under an already-present key replaces the
first for HashMap and BTreeMap — after insert(3, x) then insert(3, y),
find(3) = y — while the scan variants return x. -/
theorem std_replace_semantics {V : Type} (x y : V) :
    (((HashMap.empty : HashMap V).insert 3 x).insert 3 y).find 3 = some y ∧
    (((BTreeMap.empty : BTreeMap V).insert 3 x).insert 3 y).find 3 = some y ∧
    (((LinearMap.empty : LinearMap V).insert 3 x).insert 3 y).find 3 = some x ∧
    (((KvMap.empty : KvMap V).insert 3 x).insert 3 y).find 3 = some x ∧
    SimdMap.find 8 (((SimdMap.empty : SimdMap V).insert 8 3 x).insert 8 3 y) 3 = some x ∧
    SimdMap.find 16 (((SimdMap.empty : SimdMap V).insert 16 3 x).insert 16 3 y) 3 = some x := by
  refine ⟨rfl, rfl, rfl, rfl, ?_, ?_⟩
  · exact (buildSimd_find_some 8 (by omega) [(3, x), (3, y)] 3 0 rfl).trans rfl
  · exact (buildSimd_find_some 16 (by omega) [(3, x), (3, y)] 3 0 rfl).trans rfl

/-! Witnesses: each theorem with hypotheses applied at a concrete input. -/

/-- C2 witness: the 17-key trace (across both block widths), key 17. -/
theorem insert_then_find_witness :
    (wtrace.filter (fun e => e.1 == 17) = [(17, 117)]) ∧
    ((buildLinear wtrace).find 17 = some 117 ∧
      (buildKv wtrace).find 17 = some 117 ∧
      (buildBinary wtrace).find 17 = some 117 ∧
      (buildHash wtrace).find 17 = some 117 ∧
      (buildBTree wtrace).find 17 = some 117 ∧
      ((17 : Nat) ≠ 0 → SimdMap.find 8 (buildSimd 8 wtrace) 17 = some 117) ∧
      ((17 : Nat) ≠ 0 → SimdMap.find 16 (buildSimd 16 wtrace) 17 = some 117)) :=
  ⟨by decide, insert_then_find wtrace 17 117 (by decide)⟩

/-- C6 witness: keys 1 and 2 inserted, key 5 absent everywhere. -/
theorem find_absent_witness :
    (∀ e ∈ [((1 : Nat), (10 : Nat)), (2, 20)], e.1 ≠ 5) ∧
    (((buildLinear [((1 : Nat), (10 : Nat)), (2, 20)]).find 5 = none ∧
       (buildKv [((1 : Nat), (10 : Nat)), (2, 20)]).find 5 = none ∧
       (buildBinary [((1 : Nat), (10 : Nat)), (2, 20)]).find 5 = none ∧
       (buildHash [((1 : Nat), (10 : Nat)), (2, 20)]).find 5 = none ∧
       (buildBTree [((1 : Nat), (10 : Nat)), (2, 20)]).find 5 = none ∧
       SimdMap.find 8 (buildSimd 8 [((1 : Nat), (10 : Nat)), (2, 20)]) 5 = none ∧
       SimdMap.find 16 (buildSimd 16 [((1 : Nat), (10 : Nat)), (2, 20)]) 5 = none) ∧
     (∀ K : Nat,
       (LinearMap.empty : LinearMap Nat).find K = none ∧
       (KvMap.empty : KvMap Nat).find K = none ∧
       (BinaryMap.empty : BinaryMap Nat).find K = none ∧
       (HashMap.empty : HashMap Nat).find K = none ∧
       (BTreeMap.empty : BTreeMap Nat).find K = none ∧
       SimdMap.find 8 (SimdMap.empty : SimdMap Nat) K = none ∧
       SimdMap.find 16 (SimdMap.empty : SimdMap Nat) K = none)) :=
  ⟨by decide, find_absent [((1 : Nat), (10 : Nat)), (2, 20)] 5 (by decide)⟩

/-- C1 witness: two non-zero keys inserted, non-zero query key 5. -/
theorem simd_no_padding_reference_witness :
    ((∀ e ∈ [((5 : Nat), (42 : Nat)), (1, 43)], e.1 ≠ 0) ∧ (5 : Nat) ≠ 0) ∧
    (((buildSimd 8 [((5 : Nat), (42 : Nat)), (1, 43)] : SimdMap Nat).values.length
          = (buildSimd 8 [((5 : Nat), (42 : Nat)), (1, 43)]).next ∧
        ∀ v : Nat, SimdMap.find 8 (buildSimd 8 [((5 : Nat), (42 : Nat)), (1, 43)]) 5 = some v →
          ∃ i, i < (buildSimd 8 [((5 : Nat), (42 : Nat)), (1, 43)]).next ∧
            (buildSimd 8 [((5 : Nat), (42 : Nat)), (1, 43)]).keys[i]? = some 5 ∧
            (buildSimd 8 [((5 : Nat), (42 : Nat)), (1, 43)]).values[i]? = some v) ∧
      ((buildSimd 16 [((5 : Nat), (42 : Nat)), (1, 43)] : SimdMap Nat).values.length
          = (buildSimd 16 [((5 : Nat), (42 : Nat)), (1, 43)]).next ∧
        ∀ v : Nat, SimdMap.find 16 (buildSimd 16 [((5 : Nat), (42 : Nat)), (1, 43)]) 5 = some v →
          ∃ i, i < (buildSimd 16 [((5 : Nat), (42 : Nat)), (1, 43)]).next ∧
            (buildSimd 16 [((5 : Nat), (42 : Nat)), (1, 43)]).keys[i]? = some 5 ∧
            (buildSimd 16 [((5 : Nat), (42 : Nat)), (1, 43)]).values[i]? = some v)) :=
  ⟨⟨by decide, by decide⟩,
    simd_no_padding_reference [((5 : Nat), (42 : Nat)), (1, 43)] 5 (by decide) (by decide)⟩

/-- C3 witness: lane width 16, the empty map, key 5, value 42. -/
theorem simd_insert_preserves_inv_witness :
    (((16 : Nat) = 8 ∨ (16 : Nat) = 16) ∧ SimdInv 16 (SimdMap.empty : SimdMap Nat)) ∧
    (SimdInv 16 ((SimdMap.empty : SimdMap Nat).insert 16 5 42) ∧
      ((SimdMap.empty : SimdMap Nat).insert 16 5 42).next
          = (SimdMap.empty : SimdMap Nat).next + 1 ∧
      ((SimdMap.empty : SimdMap Nat).insert 16 5 42).values
          = (SimdMap.empty : SimdMap Nat).values ++ [42] ∧
      ((SimdMap.empty : SimdMap Nat).next = (SimdMap.empty : SimdMap Nat).keys.length →
        ((SimdMap.empty : SimdMap Nat).insert 16 5 42).keys.length
            = (SimdMap.empty : SimdMap Nat).keys.length + 16 ∧
        ∀ i, (SimdMap.empty : SimdMap Nat).keys.length ≤ i →
          i < (SimdMap.empty : SimdMap Nat).keys.length + 16 →
          i ≠ (SimdMap.empty : SimdMap Nat).next →
          ((SimdMap.empty : SimdMap Nat).insert 16 5 42).keys[i]? = some 0) ∧
      ((SimdMap.empty : SimdMap Nat).next ≠ (SimdMap.empty : SimdMap Nat).keys.length →
        ((SimdMap.empty : SimdMap Nat).insert 16 5 42).keys.length
            = (SimdMap.empty : SimdMap Nat).keys.length) ∧
      ((SimdMap.empty : SimdMap Nat).insert 16 5 42).keys[(SimdMap.empty : SimdMap Nat).next]?
        = some 5) :=
  ⟨⟨Or.inr rfl, ⟨dvd_zero 16, rfl, Nat.le_refl 0, fun i _ h2 => absurd h2 (Nat.not_lt_zero i)⟩⟩,
    simd_insert_preserves_inv 16 SimdMap.empty 5 42 (Or.inr rfl)
      ⟨dvd_zero 16, rfl, Nat.le_refl 0, fun i _ h2 => absurd h2 (Nat.not_lt_zero i)⟩⟩

/-- C4 witness: key 5 inserted at positions 0 and 2; find returns the value
of position 0. -/
theorem simd_first_match_witness :
    ((0 : Nat) < 2 ∧ (2 : Nat) < [((5 : Nat), (1 : Nat)), (3, 2), (5, 3)].length ∧
      [((5 : Nat), (1 : Nat)), (3, 2), (5, 3)][0]? = some (5, 1) ∧
      [((5 : Nat), (1 : Nat)), (3, 2), (5, 3)][2]?.map Prod.fst = some 5 ∧
      (∀ h, h < [((5 : Nat), (1 : Nat)), (3, 2), (5, 3)].length →
        [((5 : Nat), (1 : Nat)), (3, 2), (5, 3)][h]?.map Prod.fst = some 5 →
        h = 0 ∨ h = 2)) ∧
    (SimdMap.find 8 (buildSimd 8 [((5 : Nat), (1 : Nat)), (3, 2), (5, 3)]) 5 = some 1 ∧
      SimdMap.find 16 (buildSimd 16 [((5 : Nat), (1 : Nat)), (3, 2), (5, 3)]) 5 = some 1) :=
  ⟨⟨by decide, by decide, by decide, by decide, by decide⟩,
    simd_first_match [((5 : Nat), (1 : Nat)), (3, 2), (5, 3)] 5 0 2 1
      (by decide) (by decide) (by decide) (by decide) (by decide)⟩

/-- C10 witness: 0 inserted twice (positions 1 and 2); find(0) returns the
value of the first-inserted 0. -/
theorem simd_key_zero_witness :
    SimdMap.find 8 (buildSimd 8 [((3 : Nat), (1 : Nat)), (0, 7), (0, 9)]) 0 = some 7 ∧
    SimdMap.find 16 (buildSimd 16 [((3 : Nat), (1 : Nat)), (0, 7), (0, 9)]) 0 = some 7 :=
  (simd_key_zero [((3 : Nat), (1 : Nat)), (0, 7), (0, 9)] 1 7).2 (by decide) (by decide)

/-- C7 witness: a concrete consequence of totality at a two-key trace. -/
theorem find_total_witness :
    8 ≤ ((buildSimd 8 [((1 : Nat), (10 : Nat)), (2, 20)] : SimdMap Nat).keys.drop 0).length ∧
    (buildKv [((1 : Nat), (10 : Nat)), (2, 20)]).keys.length
      = (buildKv [((1 : Nat), (10 : Nat)), (2, 20)]).values.length :=
  ⟨(find_total [((1 : Nat), (10 : Nat)), (2, 20)] 2).2.2.1 0 (by decide),
    (find_total [((1 : Nat), (10 : Nat)), (2, 20)] 2).2.1.1⟩

end CompMaps
